import Mathlib

/-!
Verification of the name-normalization and game-matching pipeline of
Provenance-Emu/provenance-data.

The definitions below are a shallow embedding of:
  * rom_downloader.py : ROMDownloader.clean_game_name, ROMDownloader.find_game_in_db,
    ROMDownloader.get_system_mapping (variation-matching step), ROMDownloader.get_artwork_urls,
    ROMDownloader.download_artwork_parallel (task preparation),
  * convert_to_sqlite.py : safe_insert_many (INSERT OR IGNORE join-table import) and the
    game_artwork INSERT OR REPLACE import.

Strings are modelled as Lean String / List Char; Python regular expressions used by the
code are modelled by equivalent deterministic matchers, documented at each definition.
Python `.lower()` and SQLite `LOWER` are modelled as ASCII lowercasing (Char.toLower),
which agrees with both on the ASCII data the claims are about.
-/

/-- Characters matched by the regex class \s (ASCII part): space, tab, LF, VT, FF, CR. -/
def isPySpace (c : Char) : Bool :=
  c = ' ' || c = '\t' || c = '\n' || c = '\r' || c = '\x0b' || c = '\x0c'

/-- Index of the last occurrence of a character in a list (Python str.rfind). -/
def rlastIdx (c : Char) (l : List Char) : Option Nat :=
  match l.reverse.findIdx? (fun d => d = c) with
  | some i => some (l.length - 1 - i)
  | none => none

/-- os.path.splitext(p)[0] (posixpath): the extension starts at the last dot, unless every
character between the last path separator and that dot is itself a dot. -/
def splitextStem (p : List Char) : List Char :=
  let start : Nat := match rlastIdx '/' p with
    | some i => i + 1
    | none => 0
  match rlastIdx '.' p with
  | none => p
  | some d =>
    if start ≤ d && ((p.drop start).take (d - start)).any (fun c => c ≠ '.') then
      p.take d
    else p

/-- Whether a suffix of the name matches the whole regex \s*\([^)]*\)\s*$ : optional
whitespace, an opening paren, characters other than a closing paren, a closing paren,
then trailing whitespace up to the end of the string.  The parse is deterministic
because '(' is not whitespace and the group body excludes ')'. -/
def suffixParenMatch (t : List Char) : Bool :=
  match t.dropWhile isPySpace with
  | '(' :: rest =>
    match rest.dropWhile (fun c => c ≠ ')') with
    | ')' :: ws2 => ws2.all isPySpace
    | _ => false
  | _ => false

/-- Position (relative index) of the leftmost suffix of the list satisfying
suffixParenMatch, i.e. the start of the leftmost match of the end-anchored regex. -/
def parenSubIdx : List Char → Option Nat
  | [] => if suffixParenMatch [] then some 0 else none
  | c :: r =>
    if suffixParenMatch (c :: r) then some 0
    else (parenSubIdx r).map (fun i => i + 1)

/-- re.sub(r'\s*\([^)]*\)\s*$', '', name): delete the leftmost (hence unique, because the
pattern is end-anchored) match of the trailing parenthesized group. -/
def stripTrailingParen (s : List Char) : List Char :=
  match parenSubIdx s with
  | some i => s.take i
  | none => s

/-- re.sub(r'([a-z])([A-Z])', r'\1 \2', name): insert a space between a lowercase letter
and an immediately following uppercase letter; scanning resumes after each match, exactly
as re.sub does with this two-character pattern. -/
def camelSplit : List Char → List Char
  | [] => []
  | [a] => [a]
  | a :: b :: rest =>
    if a.isLower && b.isUpper then a :: ' ' :: b :: camelSplit rest
    else a :: camelSplit (b :: rest)

/-- Fuelled worker for removeOcc; fuel bounds the number of scanning steps. -/
def removeOccAux : Nat → List Char → List Char → List Char
  | 0, s, _ => s
  | fuel + 1, s, pat =>
    if pat.isEmpty then s
    else if pat.isPrefixOf s then removeOccAux fuel (s.drop pat.length) pat
    else
      match s with
      | [] => []
      | c :: r => c :: removeOccAux fuel r pat

/-- Python str.replace(pat, ''): remove every non-overlapping occurrence of pat from s,
scanning left to right.  (The script never calls replace with an empty pattern; for an
empty pattern this model returns s unchanged.) -/
def removeOcc (s pat : List Char) : List Char :=
  removeOccAux s.length s pat

/-- Fuelled worker for removeFirst. -/
def removeFirstAux : Nat → List Char → List Char → List Char
  | 0, s, _ => s
  | fuel + 1, s, pat =>
    if pat.isEmpty then s
    else if pat.isPrefixOf s then s.drop pat.length
    else
      match s with
      | [] => []
      | c :: r => c :: removeFirstAux fuel r pat

/-- Removal of only the first (leftmost) occurrence of pat from s.  This definition
follows the words of claim C3 ("applied once each, at most one occurrence of each
denylist string is removed per call"); it is compared against removeOcc, the
embedding of the source's str.replace. -/
def removeFirst (s pat : List Char) : List Char :=
  removeFirstAux s.length s pat

/-- Index of the leftmost occurrence of pat in s (None if pat does not occur). -/
def firstOcc (pat : List Char) : List Char → Option Nat
  | [] => if pat.isPrefixOf [] then some 0 else none
  | c :: r =>
    if pat.isPrefixOf (c :: r) then some 0
    else (firstOcc pat r).map (fun i => i + 1)

/-- Fuelled worker for removeAllSpec. -/
def removeAllSpecAux : Nat → List Char → List Char → List Char
  | 0, s, _ => s
  | fuel + 1, s, pat =>
    if pat.isEmpty then s
    else
      match firstOcc pat s with
      | none => s
      | some i => s.take i ++ removeAllSpecAux fuel (s.drop (i + pat.length)) pat

/-- Alternative formulation of "remove every occurrence of pat, left to right": cut the
string at the leftmost occurrence and repeat on the remainder.  Used as the spec-side
statement of the amended claim C3. -/
def removeAllSpec (s pat : List Char) : List Char :=
  removeAllSpecAux s.length s pat

/-- Worker for Python str.split() (split on whitespace runs, dropping empty pieces);
acc holds the current word reversed. -/
def pySplitAux : List Char → List Char → List (List Char)
  | [], acc => if acc.isEmpty then [] else [acc.reverse]
  | c :: rest, acc =>
    if isPySpace c then
      if acc.isEmpty then pySplitAux rest [] else acc.reverse :: pySplitAux rest []
    else pySplitAux rest (c :: acc)

/-- Python name.split(): the whitespace-separated words of the string. -/
def pyWords (l : List Char) : List (List Char) :=
  pySplitAux l []

/-- Python str.strip(): drop leading and trailing whitespace. -/
def pyStrip (l : List Char) : List Char :=
  ((l.dropWhile isPySpace).reverse.dropWhile isPySpace).reverse

/-- The platform-specific suffix denylist of clean_game_name, in source order. -/
def suffixList : List String :=
  ["-latest",
   "by MooglyGuy (PD)",
   "_Win64",
   "(Nintendo, Wide Screen)",
   "(VTech, Time & Fun)",
   "(Gakken, LCD Card Game)",
   "(Tomytronic)",
   "(Nintendo, Panorama Screen)",
   "(Nintendo, Table Top)",
   "(Mattel Electronics)",
   "(VTech, Electronic Tini-Arcade)",
   "(VTech, Sporty Time & Fun)",
   "(VTech, Explorer Time & Fun)",
   "(Bandai, LSI Game Double Play)"]

/-- The clean_game_name pipeline, parameterized by the suffix-removal operator and the
denylist so that the source function can be compared against claim-side variants. -/
def cleanCore (remove : List Char → List Char → List Char) (sufs : List String)
    (name : String) : String :=
  let n1 := splitextStem name.data
  let n2 := stripTrailingParen n1
  let n3 := n2.map (fun c => if c = '_' then ' ' else c)
  let n4 := camelSplit n3
  let n5 := sufs.foldl (fun acc suf => remove acc suf.data) n4
  let n6 := List.intercalate [' '] (pyWords n5)
  String.mk (pyStrip n6)

/-- ROMDownloader.clean_game_name: strip extension, strip a trailing parenthesized
group, underscores to spaces, camel-case splitting, denylist suffix removal
(str.replace of each suffix with ''), whitespace collapsing and a final strip. -/
def clean_game_name (name : String) : String :=
  cleanCore removeOcc suffixList name

/-- Claim-side variant of clean_game_name whose step 5 removes at most one occurrence of
each denylist string (the literal reading of claim C3). -/
def clean_game_name_onceEach (name : String) : String :=
  cleanCore removeFirst suffixList name

/-- Spec-side variant of clean_game_name whose step 5 removes all occurrences by
repeatedly cutting at the leftmost occurrence (amended claim C3). -/
def clean_game_name_leftmost (name : String) : String :=
  cleanCore removeAllSpec suffixList name

/-- clean_game_name with the dead denylist entry for the Win64 build suffix removed
(claim C10). -/
def clean_game_name_noWin64 (name : String) : String :=
  cleanCore removeOcc
    ["-latest",
     "by MooglyGuy (PD)",
     "(Nintendo, Wide Screen)",
     "(VTech, Time & Fun)",
     "(Gakken, LCD Card Game)",
     "(Tomytronic)",
     "(Nintendo, Panorama Screen)",
     "(Nintendo, Table Top)",
     "(Mattel Electronics)",
     "(VTech, Electronic Tini-Arcade)",
     "(VTech, Sporty Time & Fun)",
     "(VTech, Explorer Time & Fun)",
     "(Bandai, LSI Game Double Play)"]
    name

/-- ASCII lowercasing, the model of both Python str.lower() and SQLite LOWER on the
ASCII data handled by the scripts. -/
def lowerStr (s : String) : String :=
  String.mk (s.data.map Char.toLower)

/-- Fuelled worker for likeMatch. -/
def likeMatchAux : Nat → List Char → List Char → Bool
  | 0, _, _ => false
  | _ + 1, [], s => s.isEmpty
  | fuel + 1, c :: p, s =>
    if c = '%' then
      likeMatchAux fuel p s ||
        (match s with
         | [] => false
         | _ :: s' => likeMatchAux fuel (c :: p) s')
    else if c = '_' then
      match s with
      | [] => false
      | _ :: s' => likeMatchAux fuel p s'
    else
      match s with
      | [] => false
      | d :: s' => (c == d) && likeMatchAux fuel p s'

/-- SQLite LIKE pattern matching: '%' matches any sequence of characters, '_' matches one
character, all other characters match themselves.  The code passes both sides through
LOWER, so the case-folding of LIKE itself is modelled by plain character equality. -/
def likeMatch (p s : List Char) : Bool :=
  likeMatchAux (p.length + s.length + 1) p s

/-- Plain substring containment test: p occurs contiguously somewhere inside s. -/
def isSubstr (p : List Char) : List Char → Bool
  | [] => p.isPrefixOf []
  | c :: s' => p.isPrefixOf (c :: s') || isSubstr p s'

/-- One row of the games table used by the resolver. -/
structure Game where
  id : Nat
  game_title : String
  platform : Nat
deriving DecidableEq

/-- ROMDownloader.find_game_in_db: clean the name, first query for a row of the platform
with LOWER(game_title) = LOWER(clean_name) (fetchone = first row in store order), else
query with LOWER(game_title) LIKE LOWER('%' + clean_name + '%').  SQLite's LOWER leaves
the wildcard characters unchanged, so the lowered pattern is '%' followed by the lowered
clean name followed by '%'. -/
def find_game_in_db (games : List Game) (game_name : String) (system_id : Nat) :
    Option Game :=
  match games.find? (fun g =>
      g.platform == system_id &&
      lowerStr g.game_title == lowerStr (clean_game_name game_name)) with
  | some g => some g
  | none =>
    games.find? (fun g =>
      g.platform == system_id &&
      likeMatch ('%' :: ((lowerStr (clean_game_name game_name)).data ++ ['%']))
        (lowerStr g.game_title).data)

/-- The resolver as described by claim C1: exact case-insensitive title match first,
then the first record of the platform whose title case-insensitively contains the
normalized name as a plain substring, else NotFound. -/
def resolveSpec (games : List Game) (game_name : String) (system_id : Nat) :
    Option Game :=
  match games.find? (fun g =>
      g.platform == system_id &&
      lowerStr g.game_title == lowerStr (clean_game_name game_name)) with
  | some g => some g
  | none =>
    games.find? (fun g =>
      g.platform == system_id &&
      isSubstr (lowerStr (clean_game_name game_name)).data
        (lowerStr g.game_title).data)

/-- One row of the systems table: id, name, alias (alias may be NULL). -/
structure DbSystem where
  id : Nat
  name : String
  «alias» : Option String
deriving DecidableEq

/-- The per-system test of get_system_mapping's variation-matching step:
db_system['name'].lower() in [v.lower() for v in variations]
or db_system['alias'] in variations.  Note the name comparison lowers both sides while
the alias comparison is verbatim; a NULL alias never matches. -/
def stepAMatches (variations : List String) (db : DbSystem) : Bool :=
  decide (lowerStr db.name ∈ variations.map lowerStr) ||
    (match db.«alias» with
     | some a => decide (a ∈ variations)
     | none => false)

/-- Step (a) of get_system_mapping for one canonical system name: scan the stored
systems in order and return the first one accepted by stepAMatches (the loop breaks at
the first hit). -/
def get_system_mapping_stepA (variations : List String) (dbs : List DbSystem) :
    Option DbSystem :=
  dbs.find? (stepAMatches variations)

/-- One row of the game_artwork table. -/
structure ArtRow where
  id : Nat
  game_id : Nat
  type : String
  side : Option String
  filename : String
  resolution : Option String
deriving DecidableEq

/-- The ORDER BY type, id comparison of get_artwork_urls. -/
def artRowLE (a b : ArtRow) : Bool :=
  decide (a.type < b.type) || (a.type == b.type && decide (a.id ≤ b.id))

/-- Ordered insertion used to model the SQL ORDER BY. -/
def insertOrd {α : Type} (le : α → α → Bool) (x : α) : List α → List α
  | [] => [x]
  | y :: ys => if le x y then x :: y :: ys else y :: insertOrd le x ys

/-- Insertion sort used to model the SQL ORDER BY. -/
def sortOrd {α : Type} (le : α → α → Bool) (l : List α) : List α :=
  l.foldr (insertOrd le) []

/-- ROMDownloader.get_artwork_urls: the rows of game_artwork with the given game_id and
type 'boxart' or 'screenshot', ordered by type then id. -/
def get_artwork_urls (game_artwork : List ArtRow) (game_id : Nat) : List ArtRow :=
  sortOrd artRowLE
    (game_artwork.filter (fun r =>
      r.game_id == game_id && (r.type == "boxart" || r.type == "screenshot")))

/-- The fixed CDN base URL. -/
def GAMESDB_CDN : String := "https://cdn.thegamesdb.net/"

/-- The output path computed by download_artwork_parallel for one artwork row:
ROMs/{system_name}/{splitext(original_filename)[0]}-cover.jpg for boxart rows and
-screenshot.jpg for the others. -/
def artworkOutputPath (system_name original_filename : String) (r : ArtRow) : String :=
  "ROMs/" ++ system_name ++ "/" ++ String.mk (splitextStem original_filename.data) ++
    (if r.type == "boxart" then "-cover.jpg" else "-screenshot.jpg")

/-- The (cdn_url, output_path) download task list prepared by download_artwork_parallel:
one task per artwork row whose output path does not already exist, in row order.
fileExists models Path.exists on the filesystem state at the time of the call. -/
def download_tasks (fileExists : String → Bool) (system_name original_filename : String)
    (artwork_urls : List ArtRow) : List (String × String) :=
  (artwork_urls.filter
      (fun r => !fileExists (artworkOutputPath system_name original_filename r))).map
    (fun r => (GAMESDB_CDN ++ "images/original/" ++ r.filename,
               artworkOutputPath system_name original_filename r))

/-- INSERT OR IGNORE of one row into a join table whose primary key is the whole row:
a duplicate insert attempt is silently ignored, otherwise the row is appended. -/
def insertIgnore {α : Type} [DecidableEq α] (tbl : List α) (x : α) : List α :=
  if x ∈ tbl then tbl else tbl ++ [x]

/-- safe_insert_many over an INSERT OR IGNORE statement: insert the data rows in order,
silently skipping duplicates (convert_to_sqlite.py uses this for game_developers,
game_genres, game_publishers, game_alternates). -/
def safe_insert_many {α : Type} [DecidableEq α] (tbl : List α) (data : List α) :
    List α :=
  data.foldl insertIgnore tbl

/-- The column values of one artwork insert (id is assigned by SQLite). -/
structure ArtData where
  game_id : Nat
  type : String
  side : Option String
  filename : String
  resolution : Option String
deriving DecidableEq

/-- Largest id present in the artwork table (0 when empty); SQLite assigns max+1 as the
next rowid. -/
def artMaxId (tbl : List ArtRow) : Nat :=
  tbl.foldl (fun m r => max m r.id) 0

/-- The game_artwork INSERT OR REPLACE of import_data: the id column is not supplied, so
SQLite assigns a fresh rowid and the REPLACE clause never fires; the row is appended. -/
def insertReplaceArtwork (tbl : List ArtRow) (d : ArtData) : List ArtRow :=
  tbl ++ [⟨artMaxId tbl + 1, d.game_id, d.type, d.side, d.filename, d.resolution⟩]

/-- The artwork-import loop of import_data: insert every artwork row in order. -/
def importArtwork (tbl : List ArtRow) (data : List ArtData) : List ArtRow :=
  data.foldl insertReplaceArtwork tbl


/-! ## Generic list lemmas -/

/-- find? only looks at the predicate's values. -/
theorem list_find?_ext {α : Type} (p q : α → Bool) (l : List α)
    (h : ∀ a, p a = q a) : l.find? p = l.find? q := by
  induction l with
  | nil => rfl
  | cons a t ih =>
    by_cases hpa : p a = true
    · rw [List.find?_cons_of_pos _ hpa, List.find?_cons_of_pos _ ((h a) ▸ hpa)]
    · rw [List.find?_cons_of_neg _ (by simpa using hpa),
        List.find?_cons_of_neg _ (by rw [← h a]; simpa using hpa), ih]

/-- A successful find? returns a satisfying element, and every element before it in the
list fails the predicate. -/
theorem find?_some_split {α : Type} (p : α → Bool) :
    ∀ (l : List α) (a : α), l.find? p = some a →
      p a = true ∧ ∃ l1 l2, l = l1 ++ a :: l2 ∧ ∀ x ∈ l1, p x = false := by
  intro l
  induction l with
  | nil => intro a h; simp [List.find?] at h
  | cons b t ih =>
    intro a h
    by_cases hpb : p b = true
    · rw [List.find?_cons_of_pos _ hpb] at h
      cases h
      exact ⟨hpb, [], t, rfl, by intro x hx; simp at hx⟩
    · rw [List.find?_cons_of_neg _ (by simpa using hpb)] at h
      obtain ⟨hpa, l1, l2, rfl, hfail⟩ := ih a h
      refine ⟨hpa, b :: l1, l2, rfl, ?_⟩
      intro x hx
      rcases List.mem_cons.mp hx with rfl | hx
      · simpa using hpb
      · exact hfail x hx

/-- Membership through ordered insertion. -/
theorem mem_insertOrd {α : Type} (le : α → α → Bool) (x a : α) :
    ∀ l : List α, a ∈ insertOrd le x l ↔ a = x ∨ a ∈ l := by
  intro l
  induction l with
  | nil => simp [insertOrd]
  | cons y ys ih =>
    show a ∈ (if le x y then x :: y :: ys else y :: insertOrd le x ys) ↔ _
    by_cases h : le x y = true
    · rw [if_pos h]
      simp [List.mem_cons]
    · rw [if_neg h]
      simp only [List.mem_cons, ih]
      tauto

/-- Membership through the insertion sort modelling ORDER BY. -/
theorem mem_sortOrd {α : Type} (le : α → α → Bool) (a : α) :
    ∀ l : List α, a ∈ sortOrd le l ↔ a ∈ l := by
  intro l
  induction l with
  | nil => simp [sortOrd]
  | cons y ys ih =>
    simp only [sortOrd, List.foldr_cons, List.mem_cons]
    rw [show List.foldr (insertOrd le) [] ys = sortOrd le ys from rfl] at *
    rw [mem_insertOrd, ih]

/-! ## INSERT OR IGNORE lemmas (claim C8) -/

/-- Rows already present survive safe_insert_many. -/
theorem mem_safe_insert_many_left {α : Type} [DecidableEq α] (a : α) :
    ∀ (data tbl : List α), a ∈ tbl → a ∈ safe_insert_many tbl data := by
  intro data
  induction data with
  | nil => intro tbl h; simpa [safe_insert_many]
  | cons d rest ih =>
    intro tbl h
    show a ∈ safe_insert_many (insertIgnore tbl d) rest
    apply ih
    unfold insertIgnore
    split
    · exact h
    · exact List.mem_append_left _ h

/-- Every inserted row is present after safe_insert_many. -/
theorem mem_safe_insert_many_data {α : Type} [DecidableEq α] (a : α) :
    ∀ (data tbl : List α), a ∈ data → a ∈ safe_insert_many tbl data := by
  intro data
  induction data with
  | nil => intro tbl h; simp at h
  | cons d rest ih =>
    intro tbl h
    rcases List.mem_cons.mp h with rfl | h
    · show a ∈ safe_insert_many (insertIgnore tbl a) rest
      apply mem_safe_insert_many_left
      unfold insertIgnore
      split
      · assumption
      · exact List.mem_append_right _ (by simp)
    · exact ih _ h

/-- If every data row is already in the table, safe_insert_many changes nothing. -/
theorem safe_insert_many_no_new {α : Type} [DecidableEq α] :
    ∀ (data tbl : List α), (∀ x ∈ data, x ∈ tbl) → safe_insert_many tbl data = tbl := by
  intro data
  induction data with
  | nil => intro tbl _; rfl
  | cons d rest ih =>
    intro tbl h
    show safe_insert_many (insertIgnore tbl d) rest = tbl
    have hd : insertIgnore tbl d = tbl := by
      unfold insertIgnore
      rw [if_pos (h d (by simp))]
    rw [hd]
    exact ih tbl (fun x hx => h x (by simp [hx]))

/-! ## Claim C8 : idempotence of import -/

/-- C8 (counterexample): re-running the artwork import duplicates the game_artwork rows
(the id column is auto-assigned, so INSERT OR REPLACE never replaces), contradicting the
claim that re-running import_data leaves every join table, including game_artwork, with
the same rows. -/
theorem game_artwork_import_not_idempotent :
    importArtwork (importArtwork [] [⟨1, "boxart", none, "f.jpg", none⟩])
        [⟨1, "boxart", none, "f.jpg", none⟩] ≠
      importArtwork [] [⟨1, "boxart", none, "f.jpg", none⟩] := by decide

/-- C8 (amended): import is idempotent on the four join tables whose primary key is the
whole inserted row (game_developers, game_genres, game_publishers, game_alternates):
running the INSERT OR IGNORE batch twice leaves exactly the rows of running it once,
duplicate insert attempts being silently ignored.  (game_artwork is excluded: its rows
are duplicated with fresh ids, see the counterexample.) -/
theorem safe_insert_many_idempotent {α : Type} [DecidableEq α] (tbl data : List α) :
    safe_insert_many (safe_insert_many tbl data) data = safe_insert_many tbl data :=
  safe_insert_many_no_new data _ (fun x hx => mem_safe_insert_many_data x data tbl hx)

/-! ## Claim C6 : artwork lookup filter -/

/-- C6 (counterexample): get_artwork_urls returns a row of type 'boxart', which is not in
the claimed type set {cover, screenshot}; the claimed characterization is false. -/
theorem get_artwork_urls_cover_claim_false :
    ¬ (∀ (tbl : List ArtRow) (gid : Nat) (r : ArtRow),
        r ∈ get_artwork_urls tbl gid ↔
          r ∈ tbl ∧ r.game_id = gid ∧ (r.type = "cover" ∨ r.type = "screenshot")) := by
  intro h
  have h2 := (h [⟨1, 7, "boxart", none, "f.jpg", none⟩] 7
      ⟨1, 7, "boxart", none, "f.jpg", none⟩).mp (by decide)
  exact absurd h2.2.2 (by decide)

/-- C6 (amended): artwork lookup by game id returns exactly the artwork rows of that
game whose type is in the set containing boxart and screenshot, and no rows of any other
type. -/
theorem get_artwork_urls_types (tbl : List ArtRow) (gid : Nat) (r : ArtRow) :
    r ∈ get_artwork_urls tbl gid ↔
      r ∈ tbl ∧ r.game_id = gid ∧ (r.type = "boxart" ∨ r.type = "screenshot") := by
  unfold get_artwork_urls
  rw [mem_sortOrd, List.mem_filter]
  simp [and_assoc]

/-! ## Claim C9 : pre-existing artwork files are never overwritten -/

/-- C9: every download task prepared by download_artwork_parallel targets an output path
that did not exist before the call; a path that already exists is excluded from the
tasks, so only non-existing output paths are written. -/
theorem download_tasks_no_overwrite (fileExists : String → Bool)
    (system_name original_filename : String) (arts : List ArtRow) (u p : String)
    (h : (u, p) ∈ download_tasks fileExists system_name original_filename arts) :
    fileExists p = false := by
  unfold download_tasks at h
  rcases List.mem_map.mp h with ⟨r, hr, heq⟩
  have hf := (List.mem_filter.mp hr).2
  have hp : p = artworkOutputPath system_name original_filename r :=
    (congrArg Prod.snd heq).symm
  rw [hp]
  simpa using hf

/-- C9 (witness): with a cover file already on disk and a fresh screenshot target, the
screenshot task is in the task list and its path is reported as non-existing. -/
theorem download_tasks_no_overwrite_witness :
    ((("https://cdn.thegamesdb.net/images/original/s.jpg" : String),
      ("ROMs/NES/Mario-screenshot.jpg" : String)) ∈
        download_tasks (fun s => s == "ROMs/NES/Mario-cover.jpg") "NES" "Mario.zip"
          [⟨1, 7, "boxart", none, "b.jpg", none⟩,
           ⟨2, 7, "screenshot", none, "s.jpg", none⟩]) ∧
    (fun s => s == "ROMs/NES/Mario-cover.jpg") "ROMs/NES/Mario-screenshot.jpg" = false :=
  ⟨by decide,
   download_tasks_no_overwrite (fun s => s == "ROMs/NES/Mario-cover.jpg") "NES" "Mario.zip"
     [⟨1, 7, "boxart", none, "b.jpg", none⟩, ⟨2, 7, "screenshot", none, "s.jpg", none⟩]
     "https://cdn.thegamesdb.net/images/original/s.jpg" "ROMs/NES/Mario-screenshot.jpg"
     (by decide)⟩

/-! ## Claim C7 : artwork output file naming -/

/-- C7 (counterexample): the output path uses the raw extension-stripped filename, not
the normalized name: for Super_Mario (USA).zip the task path keeps the underscore and
the parenthesized region tag, so the claimed normalized-stem naming is false. -/
theorem artwork_path_normalized_claim_false :
    ¬ (∀ (fileExists : String → Bool) (system_name original_filename : String)
        (arts : List ArtRow) (u p : String),
        (u, p) ∈ download_tasks fileExists system_name original_filename arts →
        (p = "ROMs/" ++ system_name ++ "/" ++ clean_game_name original_filename ++
            "-cover.jpg" ∨
         p = "ROMs/" ++ system_name ++ "/" ++ clean_game_name original_filename ++
            "-screenshot.jpg")) := by
  intro h
  have h2 := h (fun _ => false) "NES" "Super_Mario (USA).zip"
    [⟨1, 7, "boxart", none, "b.jpg", none⟩]
    "https://cdn.thegamesdb.net/images/original/b.jpg"
    "ROMs/NES/Super_Mario (USA)-cover.jpg" (by decide)
  exact absurd h2 (by decide)

/-- C7 (amended): every downloaded artwork file's output path is the raw
extension-stripped stem of the game's original filename (not the normalized name)
suffixed with -cover.jpg for boxart rows and -screenshot.jpg for the others, placed
under ROMs/{systemName}/. -/
theorem download_tasks_path_format (fileExists : String → Bool)
    (system_name original_filename : String) (arts : List ArtRow) (u p : String)
    (h : (u, p) ∈ download_tasks fileExists system_name original_filename arts) :
    ∃ r, r ∈ arts ∧
      p = "ROMs/" ++ system_name ++ "/" ++
          String.mk (splitextStem original_filename.data) ++
          (if r.type = "boxart" then "-cover.jpg" else "-screenshot.jpg") := by
  unfold download_tasks at h
  rcases List.mem_map.mp h with ⟨r, hr, heq⟩
  refine ⟨r, (List.mem_filter.mp hr).1, ?_⟩
  have hp : p = artworkOutputPath system_name original_filename r :=
    (congrArg Prod.snd heq).symm
  rw [hp]
  unfold artworkOutputPath
  by_cases ht : r.type = "boxart"
  · rw [if_pos (beq_iff_eq.mpr ht), if_pos ht]
  · rw [if_neg (by simpa using ht), if_neg ht]

/-- C7 (witness): for Mario.zip with one boxart row the single task's path is
ROMs/NES/Mario-cover.jpg, matching the amended naming scheme. -/
theorem download_tasks_path_format_witness :
    ((("https://cdn.thegamesdb.net/images/original/b.jpg" : String),
      ("ROMs/NES/Mario-cover.jpg" : String)) ∈
        download_tasks (fun _ => false) "NES" "Mario.zip"
          [⟨1, 7, "boxart", none, "b.jpg", none⟩]) ∧
    ∃ r, r ∈ [(⟨1, 7, "boxart", none, "b.jpg", none⟩ : ArtRow)] ∧
      ("ROMs/NES/Mario-cover.jpg" : String) = "ROMs/" ++ "NES" ++ "/" ++
        String.mk (splitextStem ("Mario.zip" : String).data) ++
        (if r.type = "boxart" then "-cover.jpg" else "-screenshot.jpg") :=
  ⟨by decide,
   download_tasks_path_format (fun _ => false) "NES" "Mario.zip"
     [⟨1, 7, "boxart", none, "b.jpg", none⟩]
     "https://cdn.thegamesdb.net/images/original/b.jpg" "ROMs/NES/Mario-cover.jpg"
     (by decide)⟩

/-! ## LIKE-matching lemmas (claim C1) -/

/-- A single percent wildcard matches any string (given enough fuel). -/
theorem likeMatchAux_pct_nil :
    ∀ (s : List Char) (fuel : Nat), s.length + 2 ≤ fuel →
      likeMatchAux fuel ['%'] s = true := by
  intro s
  induction s with
  | nil =>
    intro fuel h
    cases fuel with
    | zero => omega
    | succ f =>
      cases f with
      | zero => simp at h
      | succ f' => simp [likeMatchAux]
  | cons d s' ih =>
    intro fuel h
    cases fuel with
    | zero => omega
    | succ f =>
      have hrec : likeMatchAux f ['%'] s' = true := ih f (by simp at h; omega)
      simp [likeMatchAux, hrec]

/-- A wildcard-free pattern followed by a single percent matches exactly the strings
having the pattern as a prefix. -/
theorem likeMatchAux_lit :
    ∀ (p : List Char), '%' ∉ p → '_' ∉ p →
      ∀ (s : List Char) (fuel : Nat), p.length + s.length + 2 ≤ fuel →
        likeMatchAux fuel (p ++ ['%']) s = p.isPrefixOf s := by
  intro p
  induction p with
  | nil =>
    intro _ _ s fuel h
    have := likeMatchAux_pct_nil s fuel (by simpa using h)
    simpa [List.isPrefixOf] using this
  | cons c p' ih =>
    intro hpct hund s fuel h
    have hc1 : ¬(c = '%') := fun hc => hpct (hc ▸ List.mem_cons_self c p')
    have hc2 : ¬(c = '_') := fun hc => hund (hc ▸ List.mem_cons_self c p')
    have hp1 : '%' ∉ p' := fun hm => hpct (List.mem_cons_of_mem c hm)
    have hp2 : '_' ∉ p' := fun hm => hund (List.mem_cons_of_mem c hm)
    cases fuel with
    | zero => omega
    | succ f =>
      cases s with
      | nil => simp [likeMatchAux, hc1, hc2, List.isPrefixOf]
      | cons d s' =>
        have ihs := ih hp1 hp2 s' f (by simp at h ⊢; omega)
        simp [likeMatchAux, hc1, hc2, List.isPrefixOf, ihs]

/-- For a wildcard-free core pattern, the LIKE pattern percent-core-percent matches
exactly the strings containing the core as a substring. -/
theorem likeMatchAux_substr :
    ∀ (s p : List Char) (fuel : Nat), '%' ∉ p → '_' ∉ p →
      p.length + s.length + 3 ≤ fuel →
      likeMatchAux fuel ('%' :: (p ++ ['%'])) s = isSubstr p s := by
  intro s
  induction s with
  | nil =>
    intro p fuel hpct hund h
    cases fuel with
    | zero => omega
    | succ f =>
      have hlit := likeMatchAux_lit p hpct hund [] f (by simp at h ⊢; omega)
      simp [likeMatchAux, hlit, isSubstr]
  | cons d s' ih =>
    intro p fuel hpct hund h
    cases fuel with
    | zero => omega
    | succ f =>
      have hlit := likeMatchAux_lit p hpct hund (d :: s') f (by simp at h ⊢; omega)
      have ihs := ih p f hpct hund (by simp at h ⊢; omega)
      simp [likeMatchAux, hlit, ihs, isSubstr]

/-- likeMatch with pattern percent-core-percent is substring containment whenever the
core contains no LIKE wildcard. -/
theorem likeMatch_eq_isSubstr (p s : List Char) (hpct : '%' ∉ p) (hund : '_' ∉ p) :
    likeMatch ('%' :: (p ++ ['%'])) s = isSubstr p s := by
  unfold likeMatch
  exact likeMatchAux_substr s p _ hpct hund (by simp; omega)

/-! ## Claim C1 : resolver exact-then-substring lookup -/

/-- C1 (counterexample): for the name a%b the cleaned name contains a percent sign,
which SQL LIKE treats as a wildcard: the code's fallback matches the title aXb although
the normalized name is not a substring of it, so the resolver is not the claimed
exact-then-substring lookup. -/
theorem find_game_in_db_substr_claim_false :
    find_game_in_db [⟨1, "aXb", 5⟩] "a%b" 5 ≠ resolveSpec [⟨1, "aXb", 5⟩] "a%b" 5 := by
  decide

/-- C1 (amended): find_game_in_db normalizes the name, returns the first record of the
platform whose title equals the normalized name case-insensitively, otherwise the first
record of the platform whose title case-insensitively contains the normalized name as a
substring interpreted as a SQL LIKE pattern; whenever the normalized name contains no
LIKE wildcard character (percent or underscore, once lowercased), the fallback is exactly
one-directional substring containment and the resolver coincides with the claimed
exact-then-substring lookup, returning NotFound when no record matches. -/
theorem find_game_in_db_like (games : List Game) (game_name : String) (system_id : Nat)
    (hpct : '%' ∉ (lowerStr (clean_game_name game_name)).data)
    (hund : '_' ∉ (lowerStr (clean_game_name game_name)).data) :
    find_game_in_db games game_name system_id = resolveSpec games game_name system_id := by
  unfold find_game_in_db resolveSpec
  cases hfind : games.find? (fun g =>
      g.platform == system_id &&
      lowerStr g.game_title == lowerStr (clean_game_name game_name)) with
  | some g => rfl
  | none =>
    apply list_find?_ext
    intro g
    rw [likeMatch_eq_isSubstr (lowerStr (clean_game_name game_name)).data
      (lowerStr g.game_title).data hpct hund]

/-- C1 (witness): for Mario.zip (cleaned: mario, wildcard-free) against a store holding
Super Mario Bros on platform 1, the code resolver and the claimed substring resolver
agree (both return the record through the containment fallback). -/
theorem find_game_in_db_like_witness :
    ('%' ∉ (lowerStr (clean_game_name "Mario.zip")).data) ∧
    ('_' ∉ (lowerStr (clean_game_name "Mario.zip")).data) ∧
    find_game_in_db [⟨1, "Super Mario Bros", 1⟩] "Mario.zip" 1 =
      resolveSpec [⟨1, "Super Mario Bros", 1⟩] "Mario.zip" 1 :=
  ⟨by decide, by decide,
   find_game_in_db_like [⟨1, "Super Mario Bros", 1⟩] "Mario.zip" 1 (by decide) (by decide)⟩

/-! ## Claim C5 : platform variation matching -/

/-- C5 (counterexample): a stored alias differing from a known variation only in letter
case does not map the system: with variation nes and stored alias NES (stored name not
matching), the variation-matching step finds nothing, because the alias comparison of
get_system_mapping is verbatim, not case-insensitive. -/
theorem stepA_alias_case_claim_false :
    ¬ (∀ (variations : List String) (dbs : List DbSystem) (db : DbSystem),
        db ∈ dbs →
        (∃ a, db.«alias» = some a ∧ lowerStr a ∈ variations.map lowerStr) →
        (get_system_mapping_stepA variations dbs).isSome = true) := by
  intro h
  have h2 := h ["nes"] [⟨1, "X", some "NES"⟩] ⟨1, "X", some "NES"⟩ (by decide)
    ⟨"NES", rfl, by decide⟩
  exact absurd h2 (by decide)

/-- C5 (amended): the variation-matching step of get_system_mapping accepts a stored
system when some known variation equals the stored name case-insensitively or some
variation equals the stored alias verbatim (case-sensitively; a NULL alias never
matches), and the first matching stored system in store order wins. -/
theorem get_system_mapping_stepA_spec (variations : List String) (dbs : List DbSystem)
    (db : DbSystem) (h : get_system_mapping_stepA variations dbs = some db) :
    ((∃ v ∈ variations, lowerStr v = lowerStr db.name) ∨
      (∃ a, db.«alias» = some a ∧ a ∈ variations)) ∧
    ∃ l1 l2, dbs = l1 ++ db :: l2 ∧ ∀ x ∈ l1, stepAMatches variations x = false := by
  obtain ⟨hmatch, l1, l2, heq, hfail⟩ :=
    find?_some_split (stepAMatches variations) dbs db h
  refine ⟨?_, l1, l2, heq, hfail⟩
  unfold stepAMatches at hmatch
  rcases (Bool.or_eq_true _ _).mp hmatch with hname | halias
  · left
    have hmem : lowerStr db.name ∈ variations.map lowerStr := of_decide_eq_true hname
    rcases List.mem_map.mp hmem with ⟨v, hv, hveq⟩
    exact ⟨v, hv, hveq⟩
  · right
    cases ha : db.«alias» with
    | none => rw [ha] at halias; simp at halias
    | some a =>
      rw [ha] at halias
      exact ⟨a, rfl, of_decide_eq_true halias⟩

/-- C5 (witness): variation nes matches the stored name NES case-insensitively and the
single stored system is returned first. -/
theorem get_system_mapping_stepA_spec_witness :
    get_system_mapping_stepA ["nes"] [⟨1, "NES", some "y"⟩] =
      some ⟨1, "NES", some "y"⟩ ∧
    (((∃ v ∈ ["nes"], lowerStr v = lowerStr (⟨1, "NES", some "y"⟩ : DbSystem).name) ∨
      (∃ a, (⟨1, "NES", some "y"⟩ : DbSystem).«alias» = some a ∧ a ∈ ["nes"])) ∧
     ∃ l1 l2, [(⟨1, "NES", some "y"⟩ : DbSystem)] =
         l1 ++ (⟨1, "NES", some "y"⟩ : DbSystem) :: l2 ∧
       ∀ x ∈ l1, stepAMatches ["nes"] x = false) :=
  ⟨by decide,
   get_system_mapping_stepA_spec ["nes"] [⟨1, "NES", some "y"⟩] ⟨1, "NES", some "y"⟩
     (by decide)⟩

/-! ## Claim C4 : the normalizer is pure, deterministic and total -/

/-- C4: clean_game_name is a pure total function: the empty string is mapped to the
empty string, and in any sequence of invocations (modelled as mapping the normalizer
over a list of raw names) the output for each name depends only on that name, not on
call order or prior calls. -/
theorem clean_game_name_pure_total :
    clean_game_name "" = "" ∧
    ∀ (pre post : List String) (s : String),
      List.map clean_game_name (pre ++ s :: post) =
        List.map clean_game_name pre ++
          clean_game_name s :: List.map clean_game_name post :=
  ⟨by decide, fun pre post s => by simp⟩

/-! ## Claim C2 : trailing parenthesized group stripping -/

/-- A successful parenSubIdx is a position of a regex match, is within bounds, and is
the leftmost such position. -/
theorem parenSubIdx_some_spec :
    ∀ (s : List Char) (i : Nat), parenSubIdx s = some i →
      i ≤ s.length ∧ suffixParenMatch (s.drop i) = true ∧
        ∀ j < i, suffixParenMatch (s.drop j) = false := by
  intro s
  induction s with
  | nil =>
    intro i h
    unfold parenSubIdx at h
    split at h
    · cases h
      exact ⟨by simp, by simpa using ‹suffixParenMatch [] = true›, by omega⟩
    · simp at h
  | cons c r ih =>
    intro i h
    unfold parenSubIdx at h
    by_cases hm : suffixParenMatch (c :: r) = true
    · rw [if_pos hm] at h
      cases h
      exact ⟨by simp, by simpa using hm, by omega⟩
    · rw [if_neg hm] at h
      cases hr : parenSubIdx r with
      | none => rw [hr] at h; simp at h
      | some j =>
        rw [hr] at h
        simp at h
        subst h
        obtain ⟨hle, hmatch, hmin⟩ := ih j hr
        refine ⟨Nat.succ_le_succ hle, by simpa using hmatch, ?_⟩
        intro k hk
        cases k with
        | zero => rw [List.drop_zero]; exact Bool.eq_false_iff.mpr hm
        | succ k' =>
          rw [List.drop_succ_cons]
          exact hmin k' (by omega)

/-- If some suffix of s matches the end-anchored regex, parenSubIdx finds a position. -/
theorem parenSubIdx_isSome :
    ∀ (s : List Char) (i : Nat), i ≤ s.length → suffixParenMatch (s.drop i) = true →
      (parenSubIdx s).isSome = true := by
  intro s
  induction s with
  | nil =>
    intro i _ hm
    rw [List.drop_nil] at hm
    exact absurd hm (by decide)
  | cons c r ih =>
    intro i hle hm
    unfold parenSubIdx
    by_cases hc : suffixParenMatch (c :: r) = true
    · rw [if_pos hc]; rfl
    · rw [if_neg hc]
      cases i with
      | zero => simp only [List.drop_zero] at hm; exact absurd hm hc
      | succ i' =>
        have hrec := ih i' (by simpa using hle) (by simpa using hm)
        cases hr : parenSubIdx r with
        | none => rw [hr] at hrec; simp at hrec
        | some j => simp

/-- C2 (counterexample): for the raw filename a_b (c).zip, whose name body a_b (c) ends
with the parenthesized group (c), normalization returns a b: besides the group it also
removed the space before the group and replaced the underscore, so the claim that
nothing else in the name body changes is false. -/
theorem clean_game_name_trailing_group_claim_false :
    ¬ (∀ (raw : String) (pre content : List Char),
        splitextStem raw.data = pre ++ '(' :: (content ++ [')']) →
        ')' ∉ content →
        (clean_game_name raw).data = pre) := by
  intro h
  have h2 := h "a_b (c).zip" ("a_b ".data) ['c'] (by decide) (by decide)
  exact absurd h2 (by decide)

/-- C2 (amended): the trailing-group step of the normalizer (stripTrailingParen, the
embedding of re.sub of the end-anchored group pattern) removes exactly one suffix of the
name body consisting of the trailing parenthesized group together with the whitespace
immediately around it, and changes nothing else: the remainder of the body is kept
verbatim as a prefix, the removed part is a regex match, and the removal is maximal
(no earlier position starts a match); the other normalization steps of clean_game_name
(extension stripping, underscore replacement, camel-case splitting, suffix removal,
whitespace collapsing) still apply afterwards. -/
theorem stripTrailingParen_removes_trailing_group (s : List Char)
    (h : ∃ i, i ≤ s.length ∧ suffixParenMatch (s.drop i) = true) :
    stripTrailingParen s ++ s.drop (stripTrailingParen s).length = s ∧
    suffixParenMatch (s.drop (stripTrailingParen s).length) = true ∧
    ∀ j < (stripTrailingParen s).length, suffixParenMatch (s.drop j) = false := by
  obtain ⟨i, hle, hm⟩ := h
  have hsome := parenSubIdx_isSome s i hle hm
  cases hr : parenSubIdx s with
  | none => rw [hr] at hsome; simp at hsome
  | some k =>
    obtain ⟨hkle, hkm, hkmin⟩ := parenSubIdx_some_spec s k hr
    have hstrip : stripTrailingParen s = s.take k := by
      unfold stripTrailingParen
      rw [hr]
    have hlen : (s.take k).length = k := by
      simp [List.length_take]
      omega
    rw [hstrip, hlen]
    exact ⟨List.take_append_drop k s, hkm, hkmin⟩

/-- C2 (witness): on the body Mario (USA) the step keeps the prefix Mario and removes
the suffix starting at position 5 (the space before the group), which is a match of the
trailing-group pattern. -/
theorem stripTrailingParen_removes_trailing_group_witness :
    (∃ i, i ≤ ("Mario (USA)".data).length ∧
      suffixParenMatch (("Mario (USA)".data).drop i) = true) ∧
    (stripTrailingParen "Mario (USA)".data ++
        ("Mario (USA)".data).drop (stripTrailingParen "Mario (USA)".data).length =
      "Mario (USA)".data ∧
     suffixParenMatch
        (("Mario (USA)".data).drop
          (stripTrailingParen "Mario (USA)".data).length) = true ∧
     ∀ j < (stripTrailingParen "Mario (USA)".data).length,
       suffixParenMatch (("Mario (USA)".data).drop j) = false) :=
  ⟨⟨5, by decide, by decide⟩,
   stripTrailingParen_removes_trailing_group ("Mario (USA)".data)
     ⟨5, by decide, by decide⟩⟩

/-! ## Claim C10 : the Win64 denylist entry is dead code -/

/-- Every character produced by camelSplit is a character of the input or a space. -/
theorem camelSplit_chars :
    ∀ (n : Nat) (l : List Char), l.length ≤ n →
      ∀ c, c ∈ camelSplit l → c ∈ l ∨ c = ' ' := by
  intro n
  induction n with
  | zero =>
    intro l hl c hc
    have : l = [] := by cases l with
      | nil => rfl
      | cons a t => simp at hl
    subst this
    simp [camelSplit] at hc
  | succ n ih =>
    intro l hl c hc
    rcases l with _ | ⟨a, l1⟩
    · simp [camelSplit] at hc
    rcases l1 with _ | ⟨b, rest⟩
    · simp [camelSplit] at hc
      subst hc
      left
      simp
    simp only [camelSplit] at hc
    by_cases hab : (a.isLower && b.isUpper) = true
    · rw [if_pos hab] at hc
      simp only [List.mem_cons] at hc
      rcases hc with rfl | rfl | rfl | hc
      · left; simp
      · right; rfl
      · left; simp
      · rcases ih rest (by simp at hl; omega) c hc with hin | hsp
        · left; simp [hin]
        · right; exact hsp
    · rw [if_neg hab] at hc
      simp only [List.mem_cons] at hc
      rcases hc with rfl | hc
      · left; simp
      · rcases ih (b :: rest) (by simp at hl ⊢; omega) c hc with hin | hsp
        · left; simp only [List.mem_cons] at hin ⊢; tauto
        · right; exact hsp

/-- Replacing underscores by spaces leaves no underscore in the string. -/
theorem no_underscore_map (l : List Char) :
    '_' ∉ l.map (fun c => if c = '_' then ' ' else c) := by
  intro hmem
  rcases List.mem_map.mp hmem with ⟨c, _, hc⟩
  by_cases h : c = '_'
  · rw [if_pos h] at hc
    exact absurd hc (by decide)
  · rw [if_neg h] at hc
    exact h hc

/-- Suffix removal only deletes characters: the output characters are input characters. -/
theorem mem_removeOccAux :
    ∀ (fuel : Nat) (s pat : List Char) (c : Char),
      c ∈ removeOccAux fuel s pat → c ∈ s := by
  intro fuel
  induction fuel with
  | zero =>
    intro s pat c hc
    exact hc
  | succ f ih =>
    intro s pat c hc
    simp only [removeOccAux] at hc
    by_cases hemp : pat.isEmpty = true
    · rw [if_pos hemp] at hc
      exact hc
    · rw [if_neg hemp] at hc
      by_cases hpre : pat.isPrefixOf s = true
      · rw [if_pos hpre] at hc
        exact List.drop_subset _ _ (ih _ _ _ hc)
      · rw [if_neg hpre] at hc
        cases s with
        | nil => simp at hc
        | cons d r =>
          rcases List.mem_cons.mp hc with rfl | hc
          · simp
          · exact List.mem_cons_of_mem _ (ih _ _ _ hc)

/-- Removing a pattern that starts with an underscore from an underscore-free string
changes nothing. -/
theorem removeOccAux_no_underscore_id :
    ∀ (fuel : Nat) (s tail : List Char), '_' ∉ s →
      removeOccAux fuel s ('_' :: tail) = s := by
  intro fuel
  induction fuel with
  | zero => intro s tail _; rfl
  | succ f ih =>
    intro s tail hs
    simp only [removeOccAux]
    rw [if_neg (by simp)]
    by_cases hpre : ('_' :: tail).isPrefixOf s = true
    · exfalso
      cases s with
      | nil => simp [List.isPrefixOf] at hpre
      | cons d r =>
        simp only [List.isPrefixOf, Bool.and_eq_true, beq_iff_eq] at hpre
        exact hs (List.mem_cons.mpr (Or.inl hpre.1))
    · rw [if_neg hpre]
      cases s with
      | nil => rfl
      | cons d r =>
        show d :: removeOccAux f r ('_' :: tail) = d :: r
        rw [ih r tail (fun hm => hs (List.mem_cons_of_mem _ hm))]

/-- Removing the Win64 suffix in the middle of the denylist fold is a no-op when the
starting string has no underscore. -/
theorem foldl_removeOcc_win64 (m : List Char) (hu : '_' ∉ m) (rest : List String) :
    List.foldl (fun acc suf => removeOcc acc suf.data)
        m ("-latest" :: "by MooglyGuy (PD)" :: "_Win64" :: rest) =
      List.foldl (fun acc suf => removeOcc acc suf.data)
        m ("-latest" :: "by MooglyGuy (PD)" :: rest) := by
  simp only [List.foldl_cons]
  have h1 : '_' ∉ removeOcc m ("-latest" : String).data := fun hm =>
    hu (mem_removeOccAux _ _ _ _ hm)
  have h2 : '_' ∉ removeOcc (removeOcc m ("-latest" : String).data)
      ("by MooglyGuy (PD)" : String).data := fun hm =>
    h1 (mem_removeOccAux _ _ _ _ hm)
  congr 1
  show removeOcc _ ("_Win64" : String).data = _
  rw [show ("_Win64" : String).data = '_' :: ("Win64" : String).data from rfl]
  exact removeOccAux_no_underscore_id _ _ _ h2

/-- C10: the denylist entry for the Win64 build suffix is dead code: the string reaching
the suffix-removal step of clean_game_name never contains an underscore (step 3 already
replaced underscores with spaces and step 4 only inserts spaces), so clean_game_name is
extensionally equal to the variant with that entry removed from the denylist. -/
theorem clean_game_name_win64_dead (name : String) :
    '_' ∉ camelSplit ((stripTrailingParen (splitextStem name.data)).map
        (fun c => if c = '_' then ' ' else c)) ∧
    clean_game_name name = clean_game_name_noWin64 name := by
  have hu : '_' ∉ camelSplit ((stripTrailingParen (splitextStem name.data)).map
      (fun c => if c = '_' then ' ' else c)) := by
    intro hmem
    rcases camelSplit_chars _ _ (le_refl _) _ hmem with hin | hsp
    · exact no_underscore_map _ hin
    · exact absurd hsp (by decide)
  refine ⟨hu, ?_⟩
  exact congrArg
    (fun t => String.mk (pyStrip (List.intercalate [' '] (pyWords t))))
    (foldl_removeOcc_win64 _ hu
      ["(Nintendo, Wide Screen)",
       "(VTech, Time & Fun)",
       "(Gakken, LCD Card Game)",
       "(Tomytronic)",
       "(Nintendo, Panorama Screen)",
       "(Nintendo, Table Top)",
       "(Mattel Electronics)",
       "(VTech, Electronic Tini-Arcade)",
       "(VTech, Sporty Time & Fun)",
       "(VTech, Explorer Time & Fun)",
       "(Bandai, LSI Game Double Play)"])


/-! ## Claim C3 : denylist suffix removal semantics -/

/-- A nonempty pattern has no occurrence in the empty string. -/
theorem firstOcc_nil (pat : List Char) (hp : pat ≠ []) : firstOcc pat [] = none := by
  have hfalse : pat.isPrefixOf [] = false := by
    cases pat with
    | nil => exact absurd rfl hp
    | cons a as => rfl
  simp only [firstOcc]
  rw [hfalse]
  rfl

/-- removeAllSpecAux fixes the empty string at any fuel. -/
theorem removeAllSpecAux_nil (fuel : Nat) (pat : List Char) :
    removeAllSpecAux fuel [] pat = [] := by
  cases fuel with
  | zero => rfl
  | succ f =>
    simp only [removeAllSpecAux]
    by_cases hemp : pat.isEmpty = true
    · rw [if_pos hemp]
    · rw [if_neg hemp]
      rw [firstOcc_nil pat (by intro hnil; rw [hnil] at hemp; simp at hemp)]

/-- The result of removeAllSpecAux does not depend on the fuel, as long as the fuel
covers the length of the string. -/
theorem removeAllSpecAux_congr :
    ∀ (f1 : Nat) (s : List Char) (f2 : Nat) (pat : List Char),
      s.length ≤ f1 → s.length ≤ f2 →
      removeAllSpecAux f1 s pat = removeAllSpecAux f2 s pat := by
  intro f1
  induction f1 with
  | zero =>
    intro s f2 pat h1 _
    have hs : s = [] := by
      cases s with
      | nil => rfl
      | cons a t => simp at h1
    subst hs
    rw [removeAllSpecAux_nil, removeAllSpecAux_nil]
  | succ f ih =>
    intro s f2 pat h1 h2
    cases s with
    | nil => rw [removeAllSpecAux_nil, removeAllSpecAux_nil]
    | cons c r =>
      cases f2 with
      | zero => simp at h2
      | succ k =>
        simp only [removeAllSpecAux]
        by_cases hemp : pat.isEmpty = true
        · rw [if_pos hemp, if_pos hemp]
        · rw [if_neg hemp, if_neg hemp]
          have hp1 : 1 ≤ pat.length := by
            cases pat with
            | nil => simp at hemp
            | cons a as => simp
          cases ho : firstOcc pat (c :: r) with
          | none => rfl
          | some i =>
            show List.take i (c :: r) ++
                removeAllSpecAux f (List.drop (i + pat.length) (c :: r)) pat =
              List.take i (c :: r) ++
                removeAllSpecAux k (List.drop (i + pat.length) (c :: r)) pat
            congr 1
            apply ih
            · simp only [List.length_drop, List.length_cons] at h1 ⊢
              omega
            · simp only [List.length_drop, List.length_cons] at h2 ⊢
              omega

/-- One-step unfolding of removeAllSpec on a nonempty string for a nonempty pattern:
cut at the leftmost occurrence and recurse on the remainder. -/
theorem removeAllSpec_cons (c : Char) (r pat : List Char) (hemp : pat.isEmpty = false)
    (hp1 : 1 ≤ pat.length) :
    removeAllSpec (c :: r) pat =
      match firstOcc pat (c :: r) with
      | none => c :: r
      | some i => List.take i (c :: r) ++
          removeAllSpec (List.drop (i + pat.length) (c :: r)) pat := by
  show removeAllSpecAux (r.length + 1) (c :: r) pat = _
  simp only [removeAllSpecAux]
  rw [if_neg (by simp [hemp])]
  cases ho : firstOcc pat (c :: r) with
  | none => rfl
  | some i =>
    show List.take i (c :: r) ++
        removeAllSpecAux r.length (List.drop (i + pat.length) (c :: r)) pat =
      List.take i (c :: r) ++
        removeAllSpec (List.drop (i + pat.length) (c :: r)) pat
    congr 1
    unfold removeAllSpec
    apply removeAllSpecAux_congr
    · simp only [List.length_drop, List.length_cons]
      omega
    · exact le_refl _

/-- A string without occurrences of a nonempty pattern is fixed by removeAllSpec. -/
theorem removeAllSpec_no_occ (s pat : List Char) (hemp : pat.isEmpty = false)
    (hp1 : 1 ≤ pat.length) (ho : firstOcc pat s = none) :
    removeAllSpec s pat = s := by
  cases s with
  | nil => exact removeAllSpecAux_nil _ _
  | cons c r =>
    rw [removeAllSpec_cons c r pat hemp hp1, ho]

/-- The scanning removal of str.replace agrees with the leftmost-occurrence-cut
formulation, given enough fuel. -/
theorem removeOccAux_eq_removeAllSpec :
    ∀ (fuel : Nat) (s pat : List Char), s.length ≤ fuel →
      removeOccAux fuel s pat = removeAllSpec s pat := by
  intro fuel
  induction fuel with
  | zero =>
    intro s pat h
    have hs : s = [] := by
      cases s with
      | nil => rfl
      | cons a t => simp at h
    subst hs
    rfl
  | succ f ih =>
    intro s pat h
    simp only [removeOccAux]
    by_cases hemp : pat.isEmpty = true
    · rw [if_pos hemp]
      unfold removeAllSpec
      cases s with
      | nil => rfl
      | cons c r =>
        show _ = removeAllSpecAux (r.length + 1) (c :: r) pat
        simp only [removeAllSpecAux]
        rw [if_pos hemp]
    · rw [if_neg hemp]
      have hempf : pat.isEmpty = false := Bool.eq_false_iff.mpr hemp
      have hp : pat ≠ [] := by
        cases pat with
        | nil => simp at hemp
        | cons a as => simp
      have hp1 : 1 ≤ pat.length := by
        cases pat with
        | nil => exact absurd rfl hp
        | cons a as => simp
      by_cases hpre : pat.isPrefixOf s = true
      · rw [if_pos hpre]
        cases s with
        | nil =>
          exfalso
          cases pat with
          | nil => exact absurd rfl hp
          | cons a as => simp [List.isPrefixOf] at hpre
        | cons c r =>
          rw [ih ((c :: r).drop pat.length) pat
            (by simp only [List.length_drop, List.length_cons] at h ⊢; omega)]
          have hfo : firstOcc pat (c :: r) = some 0 := by
            simp only [firstOcc]
            rw [if_pos hpre]
          rw [removeAllSpec_cons c r pat hempf hp1, hfo]
          simp
      · rw [if_neg hpre]
        cases s with
        | nil => rfl
        | cons c r =>
          show c :: removeOccAux f r pat = removeAllSpec (c :: r) pat
          rw [ih r pat (by simp at h; omega)]
          have hfo : firstOcc pat (c :: r) =
              (firstOcc pat r).map (fun i => i + 1) := by
            simp only [firstOcc]
            rw [if_neg hpre]
          rw [removeAllSpec_cons c r pat hempf hp1, hfo]
          cases ho : firstOcc pat r with
          | none =>
            rw [removeAllSpec_no_occ r pat hempf hp1 ho]
            rfl
          | some j =>
            show c :: removeAllSpec r pat =
              List.take (j + 1) (c :: r) ++
                removeAllSpec (List.drop (j + 1 + pat.length) (c :: r)) pat
            rw [List.take_succ_cons,
              show j + 1 + pat.length = (j + pat.length) + 1 from by omega,
              List.drop_succ_cons]
            have hrne : r ≠ [] := by
              intro hr
              rw [hr, firstOcc_nil pat hp] at ho
              cases ho
            cases r with
            | nil => exact absurd rfl hrne
            | cons d r' =>
              rw [removeAllSpec_cons d r' pat hempf hp1, ho]
              rfl

/-- str.replace-style removal of all occurrences coincides with the
leftmost-occurrence-cut formulation. -/
theorem removeOcc_eq_removeAllSpec (s pat : List Char) :
    removeOcc s pat = removeAllSpec s pat :=
  removeOccAux_eq_removeAllSpec s.length s pat (le_refl _)

/-- C3 (counterexample): for a-latest-latest the code removes both occurrences of the
denylist string -latest (str.replace replaces every occurrence), while the claimed
once-each semantics would remove only the first; the claim is false. -/
theorem clean_game_name_once_each_claim_false :
    clean_game_name "a-latest-latest" ≠ clean_game_name_onceEach "a-latest-latest" := by
  decide

/-- C3 (amended): in step 5 of normalization, each denylist string is removed by
verbatim, case-sensitive substring removal of every non-overlapping occurrence,
scanning left to right, applied in list order: clean_game_name is extensionally equal
to the pipeline whose step 5 repeatedly cuts each denylist string at its leftmost
occurrence and continues past it until no occurrence remains in the scanned region. -/
theorem clean_game_name_removes_all_occurrences (name : String) :
    clean_game_name name = clean_game_name_leftmost name := by
  have h : removeOcc = removeAllSpec :=
    funext fun s => funext fun pat => removeOcc_eq_removeAllSpec s pat
  show cleanCore removeOcc suffixList name = cleanCore removeAllSpec suffixList name
  rw [h]
